import Mathlib

/-!
Verification of the news-retrieval engine of PT-NEWS_EXTRACTOR.

The development shallowly embeds the search/pagination logic of
`app/apis/v1/publico/models/publico_search.py`,
`app/apis/v1/cm/models/cm_search.py` and
`app/apis/v1/publico/decorators.py`.

Remote HTTP responses are modelled as explicit inputs: a JSON list API is a
list of pages (each page a list of items; the empty list models the `"[]"`
response), and the scraped CM listing is a list of optional article lists
(`none` models the empty `""` / `"\r\n"` response).  Dates that the code
only ever compares are embedded as `Nat`; calendar dates used by the date
validators are a year/month/day structure.  Python exceptions that abort a
run (uncaught `IndexError` on a missing markup field) are `Except.error`.

Helper modules `publico_news.py` and `app/core/common/helpers.py` are not
part of the excerpt; the few facts needed from them (URL-keyed equality of
news records, the month-difference helper, whitespace normalization) are
modelled from the specification and marked as such in their doc comments.
-/

namespace PTNews

/-! ## Character-level string helpers

Python `str` operations used by the code, implemented by structural
recursion on the character list so that they evaluate inside the kernel. -/

/-- Prefix of `s` before the first occurrence of `sep`; the whole string if
`sep` does not occur.  Embeds the Python idiom `s.split(sep)[0]`. -/
def takeUntilSub (sep : List Char) : List Char → List Char
  | [] => []
  | c :: cs => if sep.isPrefixOf (c :: cs) then [] else c :: takeUntilSub sep cs

/-- Does `sep` occur as a contiguous substring?  Embeds Python `sep in s`. -/
def hasSub (sep : List Char) : List Char → Bool
  | [] => sep.isPrefixOf []
  | c :: cs => sep.isPrefixOf (c :: cs) || hasSub sep cs

/-- String wrapper for `takeUntilSub`: Python `s.split(sep)[0]`. -/
def strBefore (sep s : String) : String := ⟨takeUntilSub sep.data s.data⟩

/-- String wrapper for `hasSub`: Python `sep in s`. -/
def hasSubStr (sep s : String) : Bool := hasSub sep.data s.data

/-- Python `s.split("/")` on the character list (single-character separator,
which is the only full split the code performs). -/
def splitSlash : List Char → List (List Char)
  | [] => [[]]
  | c :: cs =>
    if c = '/' then [] :: splitSlash cs
    else
      match splitSlash cs with
      | [] => [[c]]
      | h :: t => (c :: h) :: t

/-- Python `s.split("/")`. -/
def pySplitSlash (s : String) : List String := (splitSlash s.data).map String.mk

/-- Python `s.capitalize()`: first character upper-cased, the rest lower-cased. -/
def pyCapitalize (s : String) : String :=
  match s.data with
  | [] => s
  | c :: cs => ⟨c.toUpper :: cs.map Char.toLower⟩

/-- Modelled from the spec: `normalize_str` lives in
`app/core/common/helpers.py`, which is not in the excerpt.  Per the spec it
normalizes whitespace/control characters, and the call sites comment
"Remove the newline, carriage-return and backslash characters". -/
def normalize_str (s : String) : String :=
  ⟨s.data.filter (fun c => c ≠ '\n' ∧ c ≠ '\r' ∧ c ≠ '\\')⟩

/-- Python `" ".join(l)`. -/
def joinSpace : List String → String
  | [] => ""
  | [s] => s
  | s :: t :: rest => s ++ " " ++ joinSpace (t :: rest)

/-! ## Publico data model (`publico_search.py`) -/

/-- A deserialized Publico news record.  The fields the search logic
inspects are the canonical URL (the dedup identity key per the spec) and
the publication date (embedded as `Nat`; only its order is used). -/
structure PNews where
  url : String
  date : Nat
deriving DecidableEq, Repr

/-- One element of a JSON page returned by the list API.  `date` is the
value `PublicoNews.parse_date(item.get("data"))` yields for the item, and
`ok` records whether `PublicoNews.deserialize_news` succeeds on it. -/
structure PubItem where
  url : String
  date : Nat
  ok : Bool
deriving DecidableEq, Repr

/-- Modelled from the spec: `PublicoNews.deserialize_news` lives in
`publico_news.py`, which is not in the excerpt.  Per the spec JSON parsing
"is a direct field mapping with a typed-date conversion" that may fail
(duck-typed "news object or falsy"); failure is `none`. -/
def deserialize_news (it : PubItem) : Option PNews :=
  if it.ok then some ⟨it.url, it.date⟩ else none

/-- `PublicoTopicSearch.add_news` / `PublicoKeywordsSearch.add_news`
(identical bodies): deserialize the item, and append it only when it
deserialized and no record with the same URL is already present.  The
membership test `news_object not in self.found_news` uses
`PublicoNews.__eq__`, modelled from the spec as equality of normalized
URLs ("two records with equal normalized URL are the same article"). -/
def add_news (acc : List PNews) (it : PubItem) : List PNews :=
  match deserialize_news it with
  | none => acc
  | some n => if acc.any (fun m => m.url == n.url) then acc else acc ++ [n]

/-- `PublicoURLSearch.add_news`: build a record from the URL (the builder
`PublicoNews.build_from_url` lives outside the excerpt and is a parameter)
and append it only when no record with the same URL is present.  The
source also calls `PublicoNews.validate_url(url)` first, discarding the
result. -/
def url_search_add_news (build : String → PNews) (acc : List PNews) (url : String) :
    List PNews :=
  let n := build url
  if acc.any (fun m => m.url == n.url) then acc else acc ++ [n]

/-- The inner `for item in data` loop of `PublicoTopicSearch.consume_api`.
Returns the grown list and the `stop_entire_search` flag: an item dated
strictly before `s` sets the flag and breaks; an item dated strictly after
`e` is skipped; otherwise the item is added via `add_news`. -/
def pubProcessItems (s e : Nat) : List PubItem → List PNews → List PNews × Bool
  | [], acc => (acc, false)
  | it :: rest, acc =>
    if it.date < s then (acc, true)
    else if e < it.date then pubProcessItems s e rest acc
    else pubProcessItems s e rest (add_news acc it)

/-- The `while (r := requests.get(self.api_url).text) != "[]"` loop of
`PublicoTopicSearch.consume_api` over the modelled page sequence: an empty
page ends the loop, a page whose processing raises the stop flag ends the
loop after that page, otherwise the page number advances by one.  Returns
the found news and the final page number. -/
def pubTopicAux (s e : Nat) : List (List PubItem) → List PNews → Nat → List PNews × Nat
  | [], acc, pn => (acc, pn)
  | p :: rest, acc, pn =>
    if p = [] then (acc, pn)
    else
      let st := pubProcessItems s e p acc
      if st.2 then (st.1, pn) else pubTopicAux s e rest st.1 (pn + 1)

/-- `PublicoTopicSearch.consume_api`, starting from empty `found_news` and
`page_number = 1`. -/
def consume_api_topic (s e : Nat) (pages : List (List PubItem)) : List PNews × Nat :=
  pubTopicAux s e pages [] 1

/-- The loop of `PublicoKeywordsSearch.consume_api`: every item of every
nonempty page is handed to `add_news`; no date comparison is performed in
code (the query dates only parametrize the remote API URL). -/
def pubKeywordsAux : List (List PubItem) → List PNews → Nat → List PNews × Nat
  | [], acc, pn => (acc, pn)
  | p :: rest, acc, pn =>
    if p = [] then (acc, pn)
    else pubKeywordsAux rest (p.foldl add_news acc) (pn + 1)

/-- `PublicoKeywordsSearch.consume_api`, starting from empty `found_news`
and `page_number = 1`. -/
def consume_api_keywords (pages : List (List PubItem)) : List PNews × Nat :=
  pubKeywordsAux pages [] 1

/-! ## CM data model (`cm_search.py`) -/

/-- The `authors` value computed by `CMTopicSearch.search`: either the text
of the first author span, or — when the detail page has no author span —
the (empty) span list itself, kept as a list by the Python code. -/
inductive CMAuthor where
  | name (t : String)
  | spans (l : List String)
deriving DecidableEq, Repr

/-- A CM news record, with exactly the constructor arguments of `CMNews`
as passed at `cm_search.py:137-146`. -/
structure CMNews where
  title : String
  description : String
  url : String
  rubric : String
  date : Nat
  authors : List CMAuthor
  is_opinion : Bool
  text : String
deriving DecidableEq, Repr

/-- One `//article` element of a fetched CM listing page together with the
outcome of its detail-page fetch.  Each `List` field holds the results of
the corresponding `xpath` query (an empty list makes the Python `[0]`
index raise); `dates` holds already-parsed datetimes (as `Nat`).
`detailStatus` is the HTTP status of the authenticated detail fetch, and
the `detail*` fields are the queries run against the detail page. -/
structure CMArticle where
  links : List String
  dates : List Nat
  leads : List String
  detailStatus : Nat
  detailAuthors : List String
  detailTitles : List String
  detailTextNodes : List String
deriving DecidableEq, Repr

/-- The CM site origin prepended to origin-relative URLs (`cm_search.py:94`). -/
def cmOrigin : String := "https://www.cmjornal.pt"

/-- URL fixup of `cm_search.py:94`: a URL whose first character is `/` is
prefixed with the site origin, any other URL passes through.  The caller
guards against the empty URL (where Python `url[0]` raises). -/
def cmFixUrl (u : String) : String :=
  match u.data with
  | [] => u
  | c :: _ => if c = '/' then cmOrigin ++ u else u

/-- URL normalization of `cm_search.py:94-96`: origin fixup, then
`url.split("?ref")[0]`. -/
def cmNormUrl (u : String) : String := strBefore "?ref" (cmFixUrl u)

/-- The denylist test of `cm_search.py:98`:
`any(x in url for x in ["interativa", "multimedia", "perguntas"])`. -/
def cmDenied (url : String) : Bool :=
  ["interativa", "multimedia", "perguntas"].any (fun x => hasSubStr x url)

/-- The body of the `for article in tree.xpath("//article")` loop of
`CMTopicSearch.search`, for one article.  `.error ()` models an uncaught
`IndexError` from indexing an empty `xpath` result (there is no exception
handler in `search`, so it aborts the run); `.ok none` models the `continue`
branches (denylisted URL, out-of-range date, non-200 detail fetch);
`.ok (some n)` is an accepted record.  `unesc` is Python's `html.unescape`
(standard library, kept opaque). -/
def cmProcessArticle (unesc : String → String) (s e : Nat) (a : CMArticle) :
    Except Unit (Option CMNews) :=
  match a.links with
  | [] => .error ()
  | url0 :: _ =>
    match url0.data with
    | [] => .error ()
    | _ :: _ =>
      let url := cmNormUrl url0
      if cmDenied url then .ok none
      else
        match a.dates with
        | [] => .error ()
        | d :: _ =>
          if s < d ∧ d < e then
            match a.leads with
            | [] => .error ()
            | lead :: _ =>
              if a.detailStatus ≠ 200 then .ok none
              else
                let is_opinion := hasSubStr "opiniao" url
                match (pySplitSlash url)[3]? with
                | none => .error ()
                | some seg =>
                  let rubric := pyCapitalize seg
                  let authorsVal :=
                    match a.detailAuthors with
                    | [] => CMAuthor.spans []
                    | t :: _ => CMAuthor.name t
                  match a.detailTitles with
                  | [] => .error ()
                  | t0 :: _ =>
                    let title := normalize_str t0
                    let text :=
                      strBefore "Para aceder a todos os Exclusivos CM"
                        (unesc (normalize_str (joinSpace a.detailTextNodes)))
                    .ok (some ⟨title, lead, url, rubric, d, [authorsVal], is_opinion, text⟩)
          else .ok none

/-- The full article loop over one CM listing page: each accepted record is
appended unconditionally (`self.found_news.append(news)`, no membership
check); an `IndexError` aborts the whole run. -/
def cmProcessPage (unesc : String → String) (s e : Nat) :
    List CMArticle → List CMNews → Except Unit (List CMNews)
  | [], found => .ok found
  | a :: rest, found =>
    match cmProcessArticle unesc s e a with
    | .error _ => .error ()
    | .ok none => cmProcessPage unesc s e rest found
    | .ok (some n) => cmProcessPage unesc s e rest (found ++ [n])

/-- The `while True` pagination loop of `CMTopicSearch.search` over the
modelled response sequence (`none` is the empty `""` / `"\r\n"` response,
and running past the provided pages means the site keeps answering empty).
The `fs` argument is the `full_stop` flag: initialized `False` at
`cm_search.py:79`, tested after each page at line 151, and never assigned
anywhere in the loop. -/
def cmSearchAux (unesc : String → String) (s e : Nat) :
    List (Option (List CMArticle)) → List CMNews → Bool → Except Unit (List CMNews)
  | [], found, _ => .ok found
  | none :: _, found, _ => .ok found
  | some arts :: rest, found, fs =>
    match cmProcessPage unesc s e arts found with
    | .error _ => .error ()
    | .ok found2 => if fs then .ok found2 else cmSearchAux unesc s e rest found2 fs

/-- `CMTopicSearch.search`, starting from empty `found_news` and
`full_stop = False`. -/
def cmSearch (unesc : String → String) (s e : Nat)
    (pages : List (Option (List CMArticle))) : Except Unit (List CMNews) :=
  cmSearchAux unesc s e pages [] false

/-- Refinement reference for the scraped loop, following the spec text:
"the scraped source has no early-stop condition (only empty-page
termination)" — the same per-page processing with no stop flag at all. -/
def cmSearchSpecAux (unesc : String → String) (s e : Nat) :
    List (Option (List CMArticle)) → List CMNews → Except Unit (List CMNews)
  | [], found => .ok found
  | none :: _, found => .ok found
  | some arts :: rest, found =>
    match cmProcessPage unesc s e arts found with
    | .error _ => .error ()
    | .ok found2 => cmSearchSpecAux unesc s e rest found2

/-- The spec-side scraped search: paginate until the first empty page. -/
def cmSearchSpec (unesc : String → String) (s e : Nat)
    (pages : List (Option (List CMArticle))) : Except Unit (List CMNews) :=
  cmSearchSpecAux unesc s e pages []

/-! ## Request validation decorators (`decorators.py`) -/

/-- The errors `RequestError` is raised with, one constructor per message
(`decorators.py:17, 24, 46, 50, 54`). -/
inductive ReqError where
  | tooManyUrls
  | invalidUrls (idx : List Nat)
  | startGreaterThanEnd
  | rangeTooBig
  | badDateFormat
deriving DecidableEq, Repr

/-- `validate_urls`: reject a batch of more than 50 URLs; otherwise run
`PublicoNews.validate_url` (outside the excerpt, a parameter here) over
the batch, reject listing the positions of all invalid URLs when any
exist, and otherwise run the wrapped operation `f`. -/
def validate_urls {α : Type} (validate : String → Bool) (urls : List String)
    (f : α) : Except ReqError α :=
  if urls.length > 50 then .error .tooManyUrls
  else
    let valid_url := urls.map validate
    let invalid_urls_index := ((valid_url.enum).filter (fun p => !p.2)).map Prod.fst
    if invalid_urls_index.length ≠ 0 then .error (.invalidUrls invalid_urls_index)
    else .ok f

/-- A calendar date as produced by `datetime_from_string(...).date()`. -/
structure SDate where
  y : Nat
  m : Nat
  d : Nat
deriving DecidableEq, Repr

/-- Calendar order on dates. -/
def sdBefore (a b : SDate) : Bool :=
  a.y < b.y ∨ (a.y = b.y ∧ (a.m < b.m ∨ (a.m = b.m ∧ a.d < b.d)))

/-- Modelled from the spec: `number_of_months_between_2_dates` lives in
`app/core/common/helpers.py`, which is not in the excerpt.  Per the spec it
measures the date range in calendar months, signed so that it is negative
exactly when the end date precedes the start date ("end date before start
date ... rejected"): whole-month difference, minus one when the end day of
month has not yet reached the start day of month. -/
def number_of_months_between_2_dates (s e : SDate) : Int :=
  12 * ((e.y : Int) - (s.y : Int)) + ((e.m : Int) - (s.m : Int))
    - (if e.d < s.d then 1 else 0)

/-- `validate_dates`: the two query date strings are parsed first (a parse
failure — `ValueError` in `datetime_from_string`, modelled as `none` — is
rejected as a format error); then a negative month difference rejects the
request as start-after-end, a difference above 3 rejects it as too large a
range, and otherwise the wrapped operation `f` runs. -/
def validate_dates {α : Type} (sd ed : Option SDate) (f : α) : Except ReqError α :=
  match sd, ed with
  | some s, some e =>
    let months_diff := number_of_months_between_2_dates s e
    if months_diff < 0 then .error .startGreaterThanEnd
    else if months_diff > 3 then .error .rangeTooBig
    else .ok f
  | _, _ => .error .badDateFormat

/-! ## Helper lemmas -/

theorem mem_add_news {acc : List PNews} {it : PubItem} {n : PNews}
    (h : n ∈ add_news acc it) : n ∈ acc ∨ deserialize_news it = some n := by
  cases hd : deserialize_news it with
  | none => simp only [add_news, hd] at h; exact .inl h
  | some m =>
    simp only [add_news, hd] at h
    split at h
    · exact .inl h
    · rcases List.mem_append.mp h with h2 | h2
      · exact .inl h2
      · have h3 := List.mem_singleton.mp h2
        subst h3
        exact .inr rfl

theorem add_news_not_deser {acc : List PNews} {it : PubItem}
    (h : deserialize_news it = none) : add_news acc it = acc := by
  simp only [add_news, h]

theorem add_news_dup {acc : List PNews} {it : PubItem} {n : PNews}
    (hd : deserialize_news it = some n) (hm : ∃ m ∈ acc, m.url = n.url) :
    add_news acc it = acc := by
  rcases hm with ⟨m, hmem, hurl⟩
  have hany : (acc.any fun x => x.url == n.url) = true :=
    List.any_eq_true.mpr ⟨m, hmem, by simpa using hurl⟩
  simp only [add_news, hd]
  rw [if_pos hany]

theorem pubProcessItems_no_stop (s e : Nat) :
    ∀ (items : List PubItem) (acc : List PNews),
      (∀ y ∈ items, ¬ y.date < s) → (pubProcessItems s e items acc).2 = false := by
  intro items
  induction items with
  | nil => intro acc _; rfl
  | cons it rest ih =>
    intro acc h
    have hit : ¬ it.date < s := h it (List.mem_cons_self ..)
    have hrest : ∀ y ∈ rest, ¬ y.date < s := fun y hy => h y (List.mem_cons_of_mem _ hy)
    simp only [pubProcessItems, if_neg hit]
    split
    · exact ih acc hrest
    · exact ih _ hrest

theorem pubProcessItems_stop_found (s e : Nat) (x : PubItem) (hx : x.date < s) :
    ∀ (l₁ : List PubItem) (acc : List PNews), (∀ y ∈ l₁, ¬ y.date < s) →
      ∀ l₂, pubProcessItems s e (l₁ ++ x :: l₂) acc
        = ((pubProcessItems s e l₁ acc).1, true) := by
  intro l₁
  induction l₁ with
  | nil =>
    intro acc _ l₂
    simp only [List.nil_append, pubProcessItems, if_pos hx]
  | cons y rest ih =>
    intro acc h l₂
    have hy : ¬ y.date < s := h y (List.mem_cons_self ..)
    have hrest : ∀ z ∈ rest, ¬ z.date < s := fun z hz => h z (List.mem_cons_of_mem _ hz)
    simp only [List.cons_append, pubProcessItems, if_neg hy]
    split
    · exact ih acc hrest l₂
    · exact ih _ hrest l₂

theorem pubTopicAux_stop (s e : Nat) (x : PubItem) (hx : x.date < s) :
    ∀ (P₁ : List (List PubItem)) (l₁ l₂ : List PubItem) (P₂ : List (List PubItem))
      (acc : List PNews) (pn : Nat),
      (∀ q ∈ P₁, q ≠ [] ∧ ∀ y ∈ q, ¬ y.date < s) →
      (∀ y ∈ l₁, ¬ y.date < s) →
      pubTopicAux s e (P₁ ++ (l₁ ++ x :: l₂) :: P₂) acc pn
        = pubTopicAux s e (P₁ ++ [l₁ ++ [x]]) acc pn := by
  intro P₁
  induction P₁ with
  | nil =>
    intro l₁ l₂ P₂ acc pn _ hl
    have hne : l₁ ++ x :: l₂ ≠ [] := by simp
    have hne2 : l₁ ++ [x] ≠ [] := by simp
    simp only [List.nil_append, pubTopicAux, if_neg hne, if_neg hne2]
    rw [pubProcessItems_stop_found s e x hx l₁ acc hl l₂,
        pubProcessItems_stop_found s e x hx l₁ acc hl []]
    simp
  | cons q P₁ ih =>
    intro l₁ l₂ P₂ acc pn hP hl
    have hq := hP q (List.mem_cons_self ..)
    have hP2 : ∀ r ∈ P₁, r ≠ [] ∧ ∀ y ∈ r, ¬ y.date < s :=
      fun r hr => hP r (List.mem_cons_of_mem _ hr)
    simp only [List.cons_append, pubTopicAux, if_neg hq.1,
      pubProcessItems_no_stop s e q acc hq.2, if_false]
    exact ih l₁ l₂ P₂ _ _ hP2 hl

theorem pubProcessItems_bounds (s e : Nat) :
    ∀ (items : List PubItem) (acc : List PNews),
      (∀ n ∈ acc, s ≤ n.date ∧ n.date ≤ e) →
      ∀ n ∈ (pubProcessItems s e items acc).1, s ≤ n.date ∧ n.date ≤ e := by
  intro items
  induction items with
  | nil => intro acc h; exact h
  | cons it rest ih =>
    intro acc h
    by_cases h1 : it.date < s
    · simp only [pubProcessItems, if_pos h1]; exact h
    · by_cases h2 : e < it.date
      · simp only [pubProcessItems, if_neg h1, if_pos h2]; exact ih acc h
      · simp only [pubProcessItems, if_neg h1, if_neg h2]
        refine ih _ ?_
        intro n hn
        rcases mem_add_news hn with h3 | h3
        · exact h n h3
        · simp only [deserialize_news] at h3
          split at h3
          · have h4 := Option.some.inj h3
            subst h4
            exact ⟨Nat.le_of_not_lt h1, Nat.le_of_not_lt h2⟩
          · cases h3

theorem pubTopicAux_bounds (s e : Nat) :
    ∀ (pages : List (List PubItem)) (acc : List PNews) (pn : Nat),
      (∀ n ∈ acc, s ≤ n.date ∧ n.date ≤ e) →
      ∀ n ∈ (pubTopicAux s e pages acc pn).1, s ≤ n.date ∧ n.date ≤ e := by
  intro pages
  induction pages with
  | nil => intro acc pn h; exact h
  | cons p rest ih =>
    intro acc pn h
    by_cases hp : p = []
    · simp only [pubTopicAux, if_pos hp]; exact h
    · simp only [pubTopicAux, if_neg hp]
      split
      · exact pubProcessItems_bounds s e p acc h
      · exact ih _ _ (pubProcessItems_bounds s e p acc h)

theorem cmProcessArticle_accept {unesc : String → String} {s e : Nat}
    {a : CMArticle} {n : CMNews} (h : cmProcessArticle unesc s e a = .ok (some n)) :
    (s < n.date ∧ n.date < e) ∧ n.authors.length = 1
    ∧ (∀ t ts, a.detailAuthors = t :: ts → n.authors = [CMAuthor.name t])
    ∧ (a.detailAuthors = [] → n.authors = [CMAuthor.spans []]) := by
  simp only [cmProcessArticle] at h
  repeat' split at h
  any_goals exact Except.noConfusion h
  any_goals exact Option.noConfusion (Except.ok.inj h)
  all_goals have h2 := Option.some.inj (Except.ok.inj h)
  all_goals subst h2
  all_goals refine ⟨by assumption, rfl, ?_, ?_⟩
  all_goals intros
  all_goals simp_all

theorem cmProcessPage_inv (P : CMNews → Prop) (unesc : String → String) (s e : Nat)
    (hart : ∀ a n, cmProcessArticle unesc s e a = .ok (some n) → P n) :
    ∀ (arts : List CMArticle) (found found2 : List CMNews),
      cmProcessPage unesc s e arts found = .ok found2 →
      (∀ n ∈ found, P n) → ∀ n ∈ found2, P n := by
  intro arts
  induction arts with
  | nil =>
    intro found found2 h hf
    injection h with h2
    subst h2
    exact hf
  | cons a rest ih =>
    intro found found2 h hf
    unfold cmProcessPage at h
    split at h
    · simp at h
    · exact ih _ _ h hf
    · rename_i n2 hn2
      refine ih _ _ h ?_
      intro m hm
      rcases List.mem_append.mp hm with h2 | h2
      · exact hf m h2
      · rw [List.mem_singleton.mp h2]
        exact hart a n2 hn2

theorem cmSearchAux_inv (P : CMNews → Prop) (unesc : String → String) (s e : Nat)
    (hart : ∀ a n, cmProcessArticle unesc s e a = .ok (some n) → P n) :
    ∀ (pages : List (Option (List CMArticle))) (found : List CMNews) (fs : Bool)
      (found2 : List CMNews),
      cmSearchAux unesc s e pages found fs = .ok found2 →
      (∀ n ∈ found, P n) → ∀ n ∈ found2, P n := by
  intro pages
  induction pages with
  | nil =>
    intro found fs found2 h hf
    injection h with h2
    subst h2
    exact hf
  | cons p rest ih =>
    intro found fs found2 h hf
    cases p with
    | none =>
      unfold cmSearchAux at h
      injection h with h2
      subst h2
      exact hf
    | some arts =>
      unfold cmSearchAux at h
      split at h
      · simp at h
      · rename_i f2 hf2
        have hmem := cmProcessPage_inv P unesc s e hart arts found f2 hf2 hf
        cases fs with
        | true =>
          rw [if_pos rfl] at h
          injection h with h2
          subst h2
          exact hmem
        | false =>
          rw [if_neg Bool.false_ne_true] at h
          exact ih _ _ _ h hmem

theorem cmSearchAux_no_full_stop (unesc : String → String) (s e : Nat) :
    ∀ (pages : List (Option (List CMArticle))) (found : List CMNews),
      cmSearchAux unesc s e pages found false = cmSearchSpecAux unesc s e pages found := by
  intro pages
  induction pages with
  | nil => intro found; rfl
  | cons p rest ih =>
    intro found
    cases p with
    | none => rfl
    | some arts =>
      unfold cmSearchAux cmSearchSpecAux
      cases cmProcessPage unesc s e arts found with
      | error u => rfl
      | ok found2 => simpa using ih found2

theorem invalid_index_mem (validate : String → Bool) (urls : List String) (i : Nat) :
    (i ∈ (((urls.map validate).enum).filter (fun p => !p.2)).map Prod.fst)
    ↔ ∃ h : i < urls.length, validate (urls.get ⟨i, h⟩) = false := by
  simp only [List.mem_map, List.mem_filter]
  constructor
  · rintro ⟨⟨j, b⟩, ⟨hmem, hb⟩, rfl⟩
    have hb2 : b = false := by simpa using hb
    subst hb2
    have hj := List.mk_mem_enum_iff_getElem?.mp hmem
    rw [List.getElem?_map] at hj
    cases hu : urls[j]? with
    | none => rw [hu] at hj; cases hj
    | some u =>
      rw [hu] at hj
      have hv : validate u = false := by simpa using hj
      rcases List.getElem?_eq_some.mp hu with ⟨hlt, hget⟩
      refine ⟨hlt, ?_⟩
      rw [List.get_eq_getElem, hget]
      exact hv
  · rintro ⟨hlt, hval⟩
    refine ⟨(i, false), ⟨?_, rfl⟩, rfl⟩
    apply List.mk_mem_enum_iff_getElem?.mpr
    rw [List.getElem?_map, List.getElem?_eq_getElem (by simpa using hlt)]
    rw [List.get_eq_getElem] at hval
    simp [hval]

theorem invalid_index_nil (validate : String → Bool) (urls : List String) :
    ((((urls.map validate).enum).filter (fun p => !p.2)).map Prod.fst = [])
    ↔ ∀ u ∈ urls, validate u = true := by
  rw [List.eq_nil_iff_forall_not_mem]
  constructor
  · intro h u hu
    rcases List.mem_iff_get.mp hu with ⟨⟨j, hj⟩, hget⟩
    have h2 := h j
    rw [invalid_index_mem] at h2
    rcases Bool.eq_false_or_eq_true (validate u) with ht | hf
    · exact ht
    · exact absurd ⟨hj, by rw [hget]; exact hf⟩ h2
  · intro h i
    rw [invalid_index_mem]
    rintro ⟨hlt, hval⟩
    have h3 := h _ (List.get_mem urls i hlt)
    rw [h3] at hval
    cases hval

/-! ## Claim theorems -/

/-- C4.  The scraped CM topic search never performs an early stop: the
`full_stop` flag of `CMTopicSearch.search` is initialized to `False` and
never assigned, so the `if full_stop: break` branch never fires and the
run coincides with the spec-side loop `cmSearchSpec` that has no stop flag
at all and terminates only on an empty fetched page (the empty string or
`"\r\n"`, both modelled by `none`, or the response stream running out). -/
theorem c4_cm_no_early_stop (unesc : String → String) (s e : Nat)
    (pages : List (Option (List CMArticle))) :
    cmSearch unesc s e pages = cmSearchSpec unesc s e pages :=
  cmSearchAux_no_full_stop unesc s e pages []

/-- C1.  Early-stop correctness of the descending-order topic API search
`PublicoTopicSearch.consume_api`: if the run reaches a page of the form
`l₁ ++ x :: l₂` (every earlier page nonempty and stop-free, every item of
`l₁` not older than `start`) whose item `x` is dated strictly before
`start`, then the whole run — found news and final page number — equals
the run on the input truncated right after `x`: the items `l₂` after `x`
on that page are never evaluated and the pages `P₂` after it are never
fetched; moreover no record older than `start` appears in `found_news`. -/
theorem c1_topic_early_stop (s e : Nat) (P₁ : List (List PubItem))
    (l₁ l₂ : List PubItem) (x : PubItem) (P₂ : List (List PubItem))
    (hP : ∀ q ∈ P₁, q ≠ [] ∧ ∀ y ∈ q, ¬ y.date < s)
    (hl : ∀ y ∈ l₁, ¬ y.date < s) (hx : x.date < s) :
    consume_api_topic s e (P₁ ++ (l₁ ++ x :: l₂) :: P₂)
      = consume_api_topic s e (P₁ ++ [l₁ ++ [x]])
    ∧ ∀ n ∈ (consume_api_topic s e (P₁ ++ (l₁ ++ x :: l₂) :: P₂)).1, s ≤ n.date := by
  constructor
  · exact pubTopicAux_stop s e x hx P₁ l₁ l₂ P₂ [] 1 hP hl
  · intro n hn
    exact (pubTopicAux_bounds s e _ [] 1 (by intro n hn; cases hn) n hn).1

/-- C1 witness: with range `[5, 10]`, page 1 all in range, page 2 holding
an in-range item, an item dated 3 (before the range) and a later item, and
a further page 3, the run equals the run truncated at the stop item. -/
theorem c1_topic_early_stop_witness :
    consume_api_topic 5 10
        [[⟨"u1", 7, true⟩], [⟨"u2", 8, true⟩, ⟨"u3", 3, true⟩, ⟨"u4", 6, true⟩],
         [⟨"u5", 2, true⟩]]
      = consume_api_topic 5 10 [[⟨"u1", 7, true⟩], [⟨"u2", 8, true⟩, ⟨"u3", 3, true⟩]]
    ∧ ∀ n ∈ (consume_api_topic 5 10
        [[⟨"u1", 7, true⟩], [⟨"u2", 8, true⟩, ⟨"u3", 3, true⟩, ⟨"u4", 6, true⟩],
         [⟨"u5", 2, true⟩]]).1, 5 ≤ n.date :=
  c1_topic_early_stop 5 10 [[⟨"u1", 7, true⟩]] [⟨"u2", 8, true⟩] [⟨"u4", 6, true⟩]
    ⟨"u3", 3, true⟩ [[⟨"u5", 2, true⟩]] (by decide) (by decide) (by decide)

/-- C2 fails as stated: the CM topic search appends accepted records with
no membership check, so a page carrying the same article twice (same
normalized URL `https://www.cmjornal.pt/portugal/news1`) yields two equal
records in `found_news`, not one. -/
theorem c2_counterexample :
    cmSearch id 5 10
      [some [⟨["/portugal/news1?ref=X"], [7], ["lead1"], 200, ["Ann"], ["Title1"],
              ["body", "text"]⟩,
             ⟨["/portugal/news1?ref=X"], [7], ["lead1"], 200, ["Ann"], ["Title1"],
              ["body", "text"]⟩]] =
      .ok [⟨"Title1", "lead1", "https://www.cmjornal.pt/portugal/news1", "Portugal", 7,
            [.name "Ann"], false, "body text"⟩,
           ⟨"Title1", "lead1", "https://www.cmjornal.pt/portugal/news1", "Portugal", 7,
            [.name "Ann"], false, "body text"⟩] := by
  rfl

/-- C2 amended.  Dedup idempotence holds for the Publico variants only:
`PublicoTopicSearch.add_news`/`PublicoKeywordsSearch.add_news` and
`PublicoURLSearch.add_news` leave `found_news` unchanged when a record
with the same normalized URL is already present, while `CMTopicSearch.search`
appends every accepted record unconditionally, so an article accepted twice
produces two records. -/
theorem c2_amended :
    (∀ (acc : List PNews) (it : PubItem) (n : PNews),
       deserialize_news it = some n → (∃ m ∈ acc, m.url = n.url) →
       add_news acc it = acc)
    ∧ (∀ (build : String → PNews) (acc : List PNews) (url : String),
       (∃ m ∈ acc, m.url = (build url).url) →
       url_search_add_news build acc url = acc)
    ∧ (∀ (unesc : String → String) (s e : Nat) (a : CMArticle) (found : List CMNews)
         (n : CMNews), cmProcessArticle unesc s e a = .ok (some n) →
       cmProcessPage unesc s e [a, a] found = .ok (found ++ [n, n])) := by
  refine ⟨fun acc it n hd hm => add_news_dup hd hm, ?_, ?_⟩
  · intro build acc url hm
    rcases hm with ⟨m, hmem, hurl⟩
    have hany : (acc.any fun x => x.url == (build url).url) = true :=
      List.any_eq_true.mpr ⟨m, hmem, by simpa using hurl⟩
    simp only [url_search_add_news]
    rw [if_pos hany]
  · intro unesc s e a found n h
    unfold cmProcessPage
    rw [h]
    unfold cmProcessPage
    rw [h]
    unfold cmProcessPage
    rw [List.append_assoc]
    rfl

/-- C2 witness: the amended dedup laws applied at concrete inputs. -/
theorem c2_amended_witness :
    add_news [⟨"u", 3⟩] ⟨"u", 3, true⟩ = [⟨"u", 3⟩]
    ∧ url_search_add_news (fun u => ⟨u, 0⟩) [⟨"u", 0⟩] "u" = [⟨"u", 0⟩]
    ∧ cmProcessPage id 5 10
        [⟨["/portugal/news1"], [7], ["lead1"], 200, [], ["Title1"], []⟩,
         ⟨["/portugal/news1"], [7], ["lead1"], 200, [], ["Title1"], []⟩] [] =
        .ok ([] ++ [⟨"Title1", "lead1", "https://www.cmjornal.pt/portugal/news1",
                     "Portugal", 7, [.spans []], false, ""⟩,
                    ⟨"Title1", "lead1", "https://www.cmjornal.pt/portugal/news1",
                     "Portugal", 7, [.spans []], false, ""⟩]) :=
  ⟨c2_amended.1 [⟨"u", 3⟩] ⟨"u", 3, true⟩ ⟨"u", 3⟩ (by decide) (by decide),
   c2_amended.2.1 (fun u => ⟨u, 0⟩) [⟨"u", 0⟩] "u" ⟨⟨"u", 0⟩, by decide, rfl⟩,
   c2_amended.2.2 id 5 10
     ⟨["/portugal/news1"], [7], ["lead1"], 200, [], ["Title1"], []⟩ []
     ⟨"Title1", "lead1", "https://www.cmjornal.pt/portugal/news1",
      "Portugal", 7, [.spans []], false, ""⟩ (by rfl)⟩

/-- C3 fails as stated: `PublicoKeywordsSearch.consume_api` performs no
date comparison in code (the query dates only parametrize the remote API
URL), so a keywords run whose query range is `[5, 10]` accepts a response
item dated 20 into `found_news`, outside the range. -/
theorem c3_counterexample :
    (consume_api_keywords [[⟨"u", 20, true⟩]]).1 = [⟨"u", 20⟩]
    ∧ ¬ ((5 : Nat) ≤ 20 ∧ (20 : Nat) ≤ 10) := by
  exact ⟨rfl, by omega⟩

/-- C3 amended.  Date-range inclusion holds for the variants that filter
in code: every record accepted by `CMTopicSearch.search` satisfies the
strict bounds `start < date < end`, and every record accepted by
`PublicoTopicSearch.consume_api` satisfies the inclusive bounds
`start ≤ date ≤ end`; the Publico keywords search delegates date
filtering to the remote API and enforces no bound in code. -/
theorem c3_amended :
    (∀ (unesc : String → String) (s e : Nat)
       (pages : List (Option (List CMArticle))) (found : List CMNews),
       cmSearch unesc s e pages = .ok found →
       ∀ n ∈ found, s < n.date ∧ n.date < e)
    ∧ (∀ (s e : Nat) (pages : List (List PubItem)),
       ∀ n ∈ (consume_api_topic s e pages).1, s ≤ n.date ∧ n.date ≤ e) := by
  constructor
  · intro unesc s e pages found h
    exact cmSearchAux_inv (fun n => s < n.date ∧ n.date < e) unesc s e
      (fun a n ha => (cmProcessArticle_accept ha).1) pages [] false found h
      (by intro n hn; cases hn)
  · intro s e pages n hn
    exact pubTopicAux_bounds s e pages [] 1 (by intro m hm; cases hm) n hn

/-- C3 witness: the amended bounds applied to a concrete CM run (record
dated 7 inside the strict range `(5, 10)`) and a concrete Publico topic
run (record dated 7 inside the inclusive range `[5, 10]`). -/
theorem c3_amended_witness :
    (∀ n ∈ [(⟨"Title1", "lead1", "https://www.cmjornal.pt/portugal/news1", "Portugal",
              7, [CMAuthor.spans []], false, ""⟩ : CMNews)],
       5 < CMNews.date n ∧ CMNews.date n < 10)
    ∧ ∀ n ∈ (consume_api_topic 5 10 [[⟨"u1", 7, true⟩]]).1,
        5 ≤ PNews.date n ∧ PNews.date n ≤ 10 :=
  ⟨c3_amended.1 id 5 10
     [some [⟨["/portugal/news1"], [7], ["lead1"], 200, [], ["Title1"], []⟩]] _ rfl,
   c3_amended.2 5 10 [[⟨"u1", 7, true⟩]]⟩

/-- C10.  Authors of a CM record: every record constructed by
`CMTopicSearch.search` has an `authors` attribute that is a one-element
list — the element is the text of the first author span when the detail
page has at least one author span, and the (empty) span list itself
otherwise — never a flat sequence of one name per author. -/
theorem c10_authors_singleton :
    (∀ (unesc : String → String) (s e : Nat) (a : CMArticle) (n : CMNews),
       cmProcessArticle unesc s e a = .ok (some n) →
       n.authors.length = 1
       ∧ (∀ t ts, a.detailAuthors = t :: ts → n.authors = [CMAuthor.name t])
       ∧ (a.detailAuthors = [] → n.authors = [CMAuthor.spans []]))
    ∧ (∀ (unesc : String → String) (s e : Nat)
         (pages : List (Option (List CMArticle))) (found : List CMNews),
       cmSearch unesc s e pages = .ok found →
       ∀ n ∈ found, n.authors.length = 1) := by
  constructor
  · intro unesc s e a n h
    exact (cmProcessArticle_accept h).2
  · intro unesc s e pages found h
    exact cmSearchAux_inv (fun n => n.authors.length = 1) unesc s e
      (fun a n ha => (cmProcessArticle_accept ha).2.1) pages [] false found h
      (by intro n hn; cases hn)

/-- C10 witness: a detail page with author spans `["Ann", "Bo"]` yields
`authors = [CMAuthor.name "Ann"]` (first span only, still one element),
and a concrete run's records all have a one-element `authors`. -/
theorem c10_authors_singleton_witness :
    ((⟨"Title1", "lead1", "https://www.cmjornal.pt/portugal/news1", "Portugal", 7,
       [CMAuthor.name "Ann"], false, ""⟩ : CMNews).authors.length = 1
     ∧ (∀ t ts, (["Ann", "Bo"] : List String) = t :: ts →
          [CMAuthor.name "Ann"] = [CMAuthor.name t])
     ∧ ((["Ann", "Bo"] : List String) = [] → [CMAuthor.name "Ann"] = [CMAuthor.spans []]))
    ∧ ∀ n ∈ [(⟨"Title1", "lead1", "https://www.cmjornal.pt/portugal/news1", "Portugal",
               7, [CMAuthor.name "Ann"], false, ""⟩ : CMNews)], n.authors.length = 1 :=
  ⟨c10_authors_singleton.1 id 5 10
     ⟨["/portugal/news1"], [7], ["lead1"], 200, ["Ann", "Bo"], ["Title1"], []⟩ _ rfl,
   c10_authors_singleton.2 id 5 10
     [some [⟨["/portugal/news1"], [7], ["lead1"], 200, ["Ann", "Bo"], ["Title1"], []⟩]]
     _ rfl⟩

/-- C5 fails as stated: `CMTopicSearch.search` has no per-item exception
handling, so an article whose expected date element is absent (empty
`xpath` result, Python `IndexError`) aborts the entire run — the
well-formed article after it on the same page is never processed and no
result list is produced. -/
theorem c5_counterexample :
    cmSearch id 5 10
      [some [⟨["/portugal/bad"], [], [], 200, [], [], []⟩,
             ⟨["/portugal/news1"], [7], ["lead1"], 200, [], ["Title1"], []⟩]]
      = .error () := by
  rfl

/-- C5 amended.  Per-item parse failures are tolerated only by the Publico
variants: an item that fails deserialization is skipped by
`PublicoTopicSearch.consume_api` (when its date is in range) and by
`PublicoKeywordsSearch.consume_api`, with the remaining items of the page
still processed; in `CMTopicSearch.search` a missing expected field (here
the item link) aborts the page and the run. -/
theorem c5_amended :
    (∀ (s e : Nat) (l₁ l₂ : List PubItem) (bad : PubItem) (acc : List PNews),
       bad.ok = false → ¬ bad.date < s → ¬ e < bad.date →
       pubProcessItems s e (l₁ ++ bad :: l₂) acc = pubProcessItems s e (l₁ ++ l₂) acc)
    ∧ (∀ (l₁ l₂ : List PubItem) (bad : PubItem) (acc : List PNews),
       bad.ok = false →
       List.foldl add_news acc (l₁ ++ bad :: l₂) = List.foldl add_news acc (l₁ ++ l₂))
    ∧ (∀ (unesc : String → String) (s e : Nat) (a : CMArticle)
         (rest : List CMArticle) (found : List CMNews),
       a.links = [] → cmProcessPage unesc s e (a :: rest) found = .error ()) := by
  have hdes : ∀ bad : PubItem, bad.ok = false → deserialize_news bad = none := by
    intro bad hbad
    simp [deserialize_news, hbad]
  refine ⟨?_, ?_, ?_⟩
  · intro s e l₁
    induction l₁ with
    | nil =>
      intro l₂ bad acc hbad h1 h2
      simp only [List.nil_append, pubProcessItems, if_neg h1, if_neg h2,
        add_news_not_deser (hdes bad hbad)]
    | cons y rest ih =>
      intro l₂ bad acc hbad h1 h2
      simp only [List.cons_append, pubProcessItems]
      split
      · rfl
      · split
        · exact ih l₂ bad acc hbad h1 h2
        · exact ih l₂ bad _ hbad h1 h2
  · intro l₁ l₂ bad acc hbad
    rw [List.foldl_append, List.foldl_append, List.foldl_cons,
      add_news_not_deser (hdes bad hbad)]
  · intro unesc s e a rest found hlinks
    simp only [cmProcessPage, cmProcessArticle, hlinks]

/-- C5 witness: a non-deserializable item between two good items is
skipped by both Publico loops, and a CM article with a missing link
element aborts its page. -/
theorem c5_amended_witness :
    pubProcessItems 5 10 [⟨"u1", 7, true⟩, ⟨"ubad", 8, false⟩, ⟨"u2", 9, true⟩] []
      = pubProcessItems 5 10 [⟨"u1", 7, true⟩, ⟨"u2", 9, true⟩] []
    ∧ List.foldl add_news [] [⟨"u1", 7, true⟩, ⟨"ubad", 8, false⟩, ⟨"u2", 9, true⟩]
      = List.foldl add_news [] [⟨"u1", 7, true⟩, ⟨"u2", 9, true⟩]
    ∧ cmProcessPage id 5 10
        [⟨[], [7], ["lead1"], 200, [], ["Title1"], []⟩,
         ⟨["/portugal/news1"], [7], ["lead1"], 200, [], ["Title1"], []⟩] [] = .error () :=
  ⟨c5_amended.1 5 10 [⟨"u1", 7, true⟩] [⟨"u2", 9, true⟩] ⟨"ubad", 8, false⟩ []
     (by decide) (by decide) (by decide),
   c5_amended.2.1 [⟨"u1", 7, true⟩] [⟨"u2", 9, true⟩] ⟨"ubad", 8, false⟩ [] (by decide),
   c5_amended.2.2 id 5 10 ⟨[], [7], ["lead1"], 200, [], ["Title1"], []⟩
     [⟨["/portugal/news1"], [7], ["lead1"], 200, [], ["Title1"], []⟩] [] rfl⟩

/-- C6.  In `CMTopicSearch.search`, an item whose detail-page fetch
returns a non-200 status is exactly skipped: the item reaches the status
check (its link, date within the strict range, and lead are all present
and its URL is not denylisted), produces no record (`continue`), and the
page continues with the remaining items — the run does not fail. -/
theorem c6_detail_status_skip (unesc : String → String) (s e : Nat) (a : CMArticle)
    (rest : List CMArticle) (found : List CMNews) (url0 : String) (ls : List String)
    (c : Char) (cs : List Char) (d : Nat) (ds : List Nat) (lead : String)
    (leads2 : List String)
    (hlinks : a.links = url0 :: ls) (hdata : url0.data = c :: cs)
    (hden : cmDenied (cmNormUrl url0) = false)
    (hdates : a.dates = d :: ds) (hs : s < d) (he : d < e)
    (hleads : a.leads = lead :: leads2)
    (hstatus : a.detailStatus ≠ 200) :
    cmProcessArticle unesc s e a = .ok none
    ∧ cmProcessPage unesc s e (a :: rest) found = cmProcessPage unesc s e rest found := by
  have h1 : cmProcessArticle unesc s e a = .ok none := by
    simp only [cmProcessArticle, hlinks, hdata, hden, hdates, hleads]
    rw [if_neg Bool.false_ne_true, if_pos ⟨hs, he⟩, if_pos hstatus]
  exact ⟨h1, by simp only [cmProcessPage, h1]⟩

/-- C6 witness: a detail fetch returning status 404 skips exactly that
item; the following article on the page is still processed. -/
theorem c6_detail_status_skip_witness :
    cmProcessArticle id 5 10 ⟨["/portugal/gone"], [7], ["lead0"], 404, [], [], []⟩
      = .ok none
    ∧ cmProcessPage id 5 10
        [⟨["/portugal/gone"], [7], ["lead0"], 404, [], [], []⟩,
         ⟨["/portugal/news1"], [7], ["lead1"], 200, [], ["Title1"], []⟩] []
      = cmProcessPage id 5 10
          [⟨["/portugal/news1"], [7], ["lead1"], 200, [], ["Title1"], []⟩] [] :=
  c6_detail_status_skip id 5 10 ⟨["/portugal/gone"], [7], ["lead0"], 404, [], [], []⟩
    [⟨["/portugal/news1"], [7], ["lead1"], 200, [], ["Title1"], []⟩] []
    "/portugal/gone" [] '/' "portugal/gone".data 7 [] "lead0" []
    rfl rfl (by decide) rfl (by decide) (by decide) rfl (by decide)

/-- C7.  `validate_urls`: a batch of more than 50 URLs is rejected with
the batch-size error no matter what the per-URL validator says (so the
shape checks are irrelevant) and without the wrapped operation `f` running;
for a batch within the cap, the wrapped operation runs exactly when every
URL validates, and any invalid-URLs rejection lists precisely the indices
of all offending URLs. -/
theorem c7_validate_urls {α : Type} (validate : String → Bool) (urls : List String)
    (f : α) :
    (urls.length > 50 → validate_urls validate urls f = .error .tooManyUrls)
    ∧ (urls.length ≤ 50 →
        (validate_urls validate urls f = .ok f ↔ ∀ u ∈ urls, validate u = true))
    ∧ (∀ idxs, validate_urls validate urls f = .error (.invalidUrls idxs) →
        ∀ i, i ∈ idxs ↔ ∃ h : i < urls.length, validate (urls.get ⟨i, h⟩) = false) := by
  refine ⟨?_, ?_, ?_⟩
  · intro hlen
    simp only [validate_urls, if_pos hlen]
  · intro hlen
    have hlen2 : ¬ urls.length > 50 := by omega
    simp only [validate_urls, if_neg hlen2]
    split
    · rename_i hne
      constructor
      · intro h; cases h
      · intro hall
        exact absurd ((invalid_index_nil validate urls).mpr hall) (by simpa using hne)
    · rename_i hne
      simp only [not_not] at hne
      have hall := (invalid_index_nil validate urls).mp (by simpa using hne)
      exact ⟨fun _ => hall, fun _ => rfl⟩
  · intro idxs h i
    simp only [validate_urls] at h
    split at h
    · cases h
    · split at h
      · injection h with h2
        injection h2 with h3
        subst h3
        exact invalid_index_mem validate urls i
      · cases h

/-- C7 witness: a batch of 51 URLs is rejected as too many regardless of
the validator; a 3-URL batch rejects exactly when some URL is invalid,
listing its index; an all-valid small batch runs the wrapped operation. -/
theorem c7_validate_urls_witness :
    (validate_urls (fun _ => false) (List.replicate 51 "u") (0 : Nat)
       = .error .tooManyUrls)
    ∧ (validate_urls (fun u => u ≠ "bad") ["a", "bad", "c"] (0 : Nat) = .ok 0
        ↔ ∀ u ∈ ["a", "bad", "c"], (fun u => decide ¬(u = "bad")) u = true)
    ∧ ∀ i, i ∈ [1] ↔ ∃ h : i < (["a", "bad", "c"] : List String).length,
        (fun u => decide ¬(u = "bad")) ((["a", "bad", "c"] : List String).get ⟨i, h⟩)
          = false :=
  ⟨(c7_validate_urls (fun _ => false) (List.replicate 51 "u") 0).1 (by decide),
   (c7_validate_urls (fun u => u ≠ "bad") ["a", "bad", "c"] 0).2.1 (by decide),
   (c7_validate_urls (fun u => u ≠ "bad") ["a", "bad", "c"] 0).2.2 [1] rfl⟩

theorem months_neg_iff_before (s e : SDate) (hs1 : 1 ≤ s.m) (hs2 : s.m ≤ 12)
    (he1 : 1 ≤ e.m) (he2 : e.m ≤ 12) :
    number_of_months_between_2_dates s e < 0 ↔ sdBefore e s = true := by
  by_cases hd : e.d < s.d
  · simp only [number_of_months_between_2_dates, sdBefore, if_pos hd,
      decide_eq_true_eq]
    omega
  · simp only [number_of_months_between_2_dates, sdBefore, if_neg hd,
      decide_eq_true_eq]
    omega

/-- C8.  `validate_dates`: an unparseable date string (`ValueError` from
`datetime_from_string`, modelled as `none`) is rejected as a format error;
with both dates parsed (and months in the calendar range `1..12`), an end
date before the start date is rejected as start-greater-than-end, and the
wrapped operation `f` runs exactly when the end date is not before the
start date and the range spans at most 3 calendar months — every
rejection happens in the decorator, before the wrapped fetch. -/
theorem c8_validate_dates {α : Type} (f : α) (sd ed : Option SDate) :
    ((sd = none ∨ ed = none) → validate_dates sd ed f = .error .badDateFormat)
    ∧ (∀ s e, sd = some s → ed = some e →
        1 ≤ s.m → s.m ≤ 12 → 1 ≤ e.m → e.m ≤ 12 →
        (sdBefore e s = true → validate_dates sd ed f = .error .startGreaterThanEnd)
        ∧ (validate_dates sd ed f = .ok f ↔
            sdBefore e s = false ∧ number_of_months_between_2_dates s e ≤ 3)) := by
  constructor
  · intro h
    rcases h with h | h
    · subst h
      cases ed <;> rfl
    · subst h
      cases sd <;> rfl
  · intro s e hsd hed hs1 hs2 he1 he2
    subst hsd; subst hed
    have hiff := months_neg_iff_before s e hs1 hs2 he1 he2
    constructor
    · intro hb
      have hneg : number_of_months_between_2_dates s e < 0 := hiff.mpr hb
      simp only [validate_dates, if_pos hneg]
    · simp only [validate_dates]
      split
      · rename_i hneg
        constructor
        · intro h; cases h
        · rintro ⟨hb, _⟩
          rw [hiff, hb] at hneg
          cases hneg
      · rename_i hneg
        split
        · rename_i hgt
          constructor
          · intro h; cases h
          · rintro ⟨_, hle⟩; omega
        · rename_i hgt
          refine ⟨fun _ => ⟨?_, by omega⟩, fun _ => rfl⟩
          rcases Bool.eq_false_or_eq_true (sdBefore e s) with hb | hb
          · exact absurd (hiff.mpr hb) hneg
          · exact hb

/-- C8 witness: same-month reversed dates are rejected as
start-greater-than-end; a 3-month range runs the wrapped operation; an
unparsed date is rejected as a format error. -/
theorem c8_validate_dates_witness :
    (validate_dates (some ⟨2021, 1, 20⟩) (some ⟨2021, 1, 10⟩) (0 : Nat)
       = .error .startGreaterThanEnd)
    ∧ (validate_dates (some ⟨2021, 1, 10⟩) (some ⟨2021, 4, 10⟩) (0 : Nat) = .ok 0
        ↔ sdBefore ⟨2021, 4, 10⟩ ⟨2021, 1, 10⟩ = false
          ∧ number_of_months_between_2_dates ⟨2021, 1, 10⟩ ⟨2021, 4, 10⟩ ≤ 3)
    ∧ validate_dates none (some ⟨2021, 1, 10⟩) (0 : Nat) = .error .badDateFormat :=
  ⟨((c8_validate_dates 0 (some ⟨2021, 1, 20⟩) (some ⟨2021, 1, 10⟩)).2
      ⟨2021, 1, 20⟩ ⟨2021, 1, 10⟩ rfl rfl (by decide) (by decide) (by decide)
      (by decide)).1 (by decide),
   ((c8_validate_dates 0 (some ⟨2021, 1, 10⟩) (some ⟨2021, 4, 10⟩)).2
      ⟨2021, 1, 10⟩ ⟨2021, 4, 10⟩ rfl rfl (by decide) (by decide) (by decide)
      (by decide)).2,
   (c8_validate_dates 0 none (some ⟨2021, 1, 10⟩)).1 (Or.inl rfl)⟩

theorem takeUntilSub_no_mark (sep : List Char) (hsep : sep.head? = some '?') :
    ∀ l : List Char, (∀ c ∈ l, c ≠ '?') → takeUntilSub sep l = l := by
  intro l
  induction l with
  | nil => intro _; rfl
  | cons c cs ih =>
    intro h
    have hc : c ≠ '?' := h c (List.mem_cons_self ..)
    have hpre : sep.isPrefixOf (c :: cs) = false := by
      match sep, hsep with
      | q :: rest, hq =>
        have hq2 : q = '?' := by simpa using hq
        subst hq2
        simp only [List.isPrefixOf, Bool.and_eq_false_iff]
        left
        exact beq_eq_false_iff_ne.mpr (Ne.symm hc)
    simp only [takeUntilSub, hpre, Bool.false_eq_true, if_false]
    exact congrArg (c :: ·) (ih fun d hd => h d (List.mem_cons_of_mem _ hd))

theorem takeUntilSub_boundary (sep : List Char) (hsep : sep.head? = some '?') :
    ∀ (l v : List Char), (∀ c ∈ l, c ≠ '?') →
      takeUntilSub sep (l ++ sep ++ v) = l := by
  intro l
  induction l with
  | nil =>
    intro v _
    match sep, hsep with
    | q :: rest, _ =>
      have hpre : (q :: rest).isPrefixOf ((q :: rest) ++ v) = true :=
        List.isPrefixOf_iff_prefix.mpr (List.prefix_append _ _)
      simp only [List.nil_append, List.cons_append]
      simp only [List.cons_append] at hpre
      simp only [takeUntilSub, hpre, if_true]
  | cons c cs ih =>
    intro v h
    have hc : c ≠ '?' := h c (List.mem_cons_self ..)
    have hpre : sep.isPrefixOf (c :: (cs ++ sep ++ v)) = false := by
      match sep, hsep with
      | q :: rest, hq =>
        have hq2 : q = '?' := by simpa using hq
        subst hq2
        simp only [List.isPrefixOf, Bool.and_eq_false_iff]
        left
        exact beq_eq_false_iff_ne.mpr (Ne.symm hc)
    simp only [List.cons_append] at hpre ⊢
    simp only [takeUntilSub, hpre, Bool.false_eq_true, if_false]
    exact congrArg (c :: ·) (ih v fun d hd => h d (List.mem_cons_of_mem _ hd))

/-- C9.  URL normalization of the scraped CM search: `/x/y` is prefixed
with the `https://www.cmjornal.pt` origin; a URL not beginning with `/`
(and containing no `?`) passes through unchanged; and everything from the
`?ref` substring onward is dropped — for both absolute URLs and
origin-relative URLs, where the origin prefix is applied first. -/
theorem c9_url_normalization :
    cmNormUrl "/x/y" = "https://www.cmjornal.pt/x/y"
    ∧ (∀ u : String, (∀ c ∈ u.data, c ≠ '?') → u.data.head? ≠ some '/' →
        cmNormUrl u = u)
    ∧ (∀ u v : String, (∀ c ∈ u.data, c ≠ '?') → u.data.head? ≠ some '/' →
        cmNormUrl (u ++ "?ref" ++ v) = u)
    ∧ (∀ u v : String, (∀ c ∈ u.data, c ≠ '?') → u.data.head? = some '/' →
        cmNormUrl (u ++ "?ref" ++ v) = cmOrigin ++ u) := by
  have hsep : ("?ref".data).head? = some '?' := rfl
  refine ⟨by rfl, ?_, ?_, ?_⟩
  · intro u hq hslash
    have hfix : cmFixUrl u = u := by
      cases hu : u.data with
      | nil => simp only [cmFixUrl, hu]
      | cons c cs =>
        have hc : c ≠ '/' := by
          intro hc2
          exact hslash (by rw [hu, hc2]; rfl)
        simp only [cmFixUrl, hu, if_neg hc]
    unfold cmNormUrl strBefore
    rw [hfix, takeUntilSub_no_mark _ hsep u.data hq]
  · intro u v hq hslash
    have hdata : (u ++ "?ref" ++ v).data = u.data ++ "?ref".data ++ v.data := by
      simp [String.data_append]
    have hfix : cmFixUrl (u ++ "?ref" ++ v) = u ++ "?ref" ++ v := by
      cases hu : u.data with
      | nil =>
        have hq2 : ('?' : Char) ≠ '/' := by decide
        simp only [cmFixUrl, hdata, hu, List.nil_append]
        rw [show ("?ref".data ++ v.data) = '?' :: ("ref".data ++ v.data) from rfl]
        simp only [if_neg hq2]
      | cons c cs =>
        have hc : c ≠ '/' := by
          intro hc2
          exact hslash (by rw [hu, hc2]; rfl)
        simp only [cmFixUrl, hdata, hu, List.cons_append, if_neg hc]
    unfold cmNormUrl strBefore
    rw [hfix, hdata, takeUntilSub_boundary _ hsep u.data v.data hq]
  · intro u v hq hslash
    have hdata : (u ++ "?ref" ++ v).data = u.data ++ "?ref".data ++ v.data := by
      simp [String.data_append]
    match hu : u.data, hslash with
    | c :: cs, hslash =>
      have hc : c = '/' := by simpa [hu] using hslash
      have hfix : cmFixUrl (u ++ "?ref" ++ v) = cmOrigin ++ (u ++ "?ref" ++ v) := by
        simp only [cmFixUrl, hdata, hu, List.cons_append, if_pos hc]
      have hq2 : ∀ d ∈ cmOrigin.data ++ u.data, d ≠ '?' := by
        intro d hd
        rcases List.mem_append.mp hd with hd2 | hd2
        · revert hd2
          have horig : ∀ d2 ∈ cmOrigin.data, d2 ≠ '?' := by decide
          exact horig d
        · exact hq d hd2
      have hdata2 : (cmOrigin ++ (u ++ "?ref" ++ v)).data
          = (cmOrigin.data ++ u.data) ++ "?ref".data ++ v.data := by
        simp only [String.data_append, List.append_assoc]
      unfold cmNormUrl strBefore
      rw [hfix, hdata2, takeUntilSub_boundary _ hsep (cmOrigin.data ++ u.data) v.data hq2,
        ← String.data_append]

/-- C9 witness: the normalization laws applied to the concrete URLs of the
spec scenario — a relative `/x/y`, an absolute URL without tracking
suffix, and both kinds with a `?ref=X` tracking suffix. -/
theorem c9_url_normalization_witness :
    cmNormUrl "/x/y" = "https://www.cmjornal.pt/x/y"
    ∧ cmNormUrl "https://example.pt/a" = "https://example.pt/a"
    ∧ cmNormUrl ("https://example.pt/a" ++ "?ref" ++ "=X") = "https://example.pt/a"
    ∧ cmNormUrl ("/x/y" ++ "?ref" ++ "=X") = cmOrigin ++ "/x/y" :=
  ⟨c9_url_normalization.1,
   c9_url_normalization.2.1 "https://example.pt/a" (by decide) (by decide),
   c9_url_normalization.2.2.1 "https://example.pt/a" "=X" (by decide) (by decide),
   c9_url_normalization.2.2.2 "/x/y" "=X" (by decide) (by decide)⟩

end PTNews
